import Mathlib

/-!
Verification of the CmdLib command parser / builder library.

Strings are modelled as `List Char` (the C++ code operates on byte strings).
Two implementations from the sources are embedded:

* `P0` — the STL build of `CmdLib.h` in `src/unnamed/part_000`
  (message kind + command + named `key=value` parameters, positional
  tokens rejected).  Its `std::unordered_map` parameter store is modelled
  as an insertion-ordered association list, which fixes a deterministic
  iteration order for `toString`.
* `ABounded` — the `setParam` of the Arduino (fixed-capacity) builds.

A third component `M` models the multi-hop core library
(`CommandLibary/CmdLib.h`), whose implementation file is not in the
sources (only its README and its test harness are); it is modelled from
the spec, see the doc comments in namespace `M`.
-/

set_option linter.unusedVariables false

/-- Opening brace character. -/
def obrace : Char := Char.ofNat 123

/-- Closing brace character. -/
def cbrace : Char := Char.ofNat 125

/-- Double-quote character. -/
def dquote : Char := Char.ofNat 34

/-- Single-quote character. -/
def squote : Char := Char.ofNat 39

/-- C `isspace` over the ASCII whitespace set, as the sources call it. -/
def isspace (c : Char) : Bool :=
  c == ' ' || c == Char.ofNat 9 || c == Char.ofNat 10 ||
  c == Char.ofNat 11 || c == Char.ofNat 12 || c == Char.ofNat 13

/-- The `trim` helper of CmdLib: drop leading, then trailing, whitespace. -/
def trim (s : List Char) : List Char :=
  (((s.dropWhile isspace).reverse).dropWhile isspace).reverse

/-- Index of the first character satisfying `p` (C++ `find`). -/
def firstIdx (p : Char → Bool) : List Char → Option Nat
  | [] => none
  | c :: cs => if p c then some 0 else (firstIdx p cs).map (· + 1)

/-- Index of the last character satisfying `p` (C++ `rfind`). -/
def lastIdx (p : Char → Bool) (s : List Char) : Option Nat :=
  match firstIdx p s.reverse with
  | none => none
  | some i => some (s.length - 1 - i)

/-- Substring `[a, b)` of a character list (C++ `substr`). -/
def sub (s : List Char) (a b : Nat) : List Char := (s.take b).drop a

/-- Join pieces with a separator, the way the serializers emit lists. -/
def joinSep (sep : List Char) : List (List Char) → List Char
  | [] => []
  | [x] => x
  | x :: y :: t => x ++ sep ++ joinSep sep (y :: t)

/-- Split on a character; inverse of joining with it. -/
def splitOnChar (c : Char) : List Char → List (List Char)
  | [] => [[]]
  | x :: xs =>
    match splitOnChar c xs with
    | [] => [[]]
    | h :: t => if x == c then [] :: h :: t else (x :: h) :: t

/-- Key scanning predicate: read until `=` or `,` (parser loops). -/
def keyChar (c : Char) : Bool := !(c == '=' || c == ',')

/-- Value scanning predicate: read until `,`. -/
def notComma (c : Char) : Bool := !(c == ',')

/-- The `input.rfind("!!", 0) == 0` / `startsWith` framing check. -/
def prefixOk (s : List Char) : Bool := "!!".data.isPrefixOf s

/-- `map[k] = v` of `std::unordered_map` (and the update loop of the
Arduino `setParam`): overwrite the entry if the key exists, else insert. -/
def updateAssoc : List (List Char × List Char) → List Char → List Char →
    List (List Char × List Char)
  | [], k, v => [(k, v)]
  | (k', v') :: t, k, v =>
    if k' = k then (k, v) :: t else (k', v') :: updateAssoc t k v

/-- Lookup with default (the `getNamed` / `getParam` accessors). -/
def lookupD (l : List (List Char × List Char)) (k d : List Char) : List Char :=
  match l.find? (fun p => p.1 == k) with
  | some p => p.2
  | none => d

/-- Character allowed by the amended round-trip precondition: none of
the delimiters `,` `=` `:` `obrace` `cbrace`. -/
def plainChar (c : Char) : Bool :=
  !(c == ',' || c == '=' || c == ':' || c == obrace || c == cbrace)

/-- A string that the round-trip can restore: delimiter-free and with no
leading or trailing whitespace. -/
def goodStr (s : List Char) : Bool := (trim s == s) && s.all plainChar

/-- Header part free of `:` and braces (claim C1's side conditions). -/
def partOk (c : Char) : Bool := !(c == ':' || c == obrace || c == cbrace)

/-- The serialized parameter list body: comma-joined `key=value` tokens. -/
def paramBody (ps : List (List Char × List Char)) : List Char :=
  joinSep [','] (ps.map fun p => p.1 ++ '=' :: p.2)

namespace P0

/-- The `Command` of `src/unnamed/part_000` (STL build): optional message
kind, command name, named parameters. -/
structure Command where
  msgKind : List Char
  command : List Char
  params : List (List Char × List Char)
deriving DecidableEq

/-- The default-constructed (empty) command. -/
def Command.empty : Command := ⟨[], [], []⟩

/-- The `clear()` method: every field reset. -/
def Command.clear (_c : Command) : Command := Command.empty

/-- The `setParam` method (named parameter insert-or-overwrite). -/
def Command.setParam (c : Command) (k v : List Char) : Command :=
  { c with params := updateAssoc c.params k v }

/-- The `getNamed` accessor with default. -/
def Command.getNamed (c : Command) (k d : List Char) : List Char :=
  lookupD c.params k d

/-- The `toString` serializer of part_000. -/
def Command.toString (c : Command) : List Char :=
  "!!".data
    ++ (if c.msgKind = [] then [] else c.msgKind ++ [':'])
    ++ c.command
    ++ (if c.params = [] then []
        else obrace :: (paramBody c.params ++ [cbrace]))
    ++ "##".data

/-- The suffix test of `parse`: `size < 4 || substr(size-2) != "##"`. -/
def suffixBad (s : List Char) : Bool :=
  decide (s.length < 4) || !(s.drop (s.length - 2) == "##".data)

/-- Header end: the first `{` when present, else `size - 2`. -/
def headerEndOf (s : List Char) : Nat :=
  match firstIdx (fun c => c == obrace) s with
  | some i => i
  | none => s.length - 2

/-- Header text: between the prefix and `headerEndOf`, one trailing `:`
stripped. -/
def headerOf (s : List Char) : List Char :=
  let h := sub s 2 (headerEndOf s)
  if h.getLast? = some ':' then h.dropLast else h

/-- Split the header at the last colon into (message kind, command). -/
def splitHeader (h : List Char) : List Char × List Char :=
  match lastIdx (fun c => c == ':') h with
  | none => ([], trim h)
  | some j => (trim (h.take j), trim (h.drop (j + 1)))

/-- The parameter loop of part_000's `parse` (named parameters only;
a non-empty token without `=` is a positional parameter and an error).
The `while` loop over an index is modelled by structural recursion on a
fuel bound, always called with more fuel than remaining characters. -/
def paramLoop : Nat → List Char → Command → Bool × Command × List Char
  | 0, _, out => (true, out, [])
  | Nat.succ f, rest, out =>
    let r := rest.dropWhile isspace
    match r with
    | [] => (true, out, [])
    | _ :: _ =>
      let tok := r.takeWhile keyChar
      let r1 := r.dropWhile keyChar
      match r1 with
      | [] =>
        if trim tok = [] then (true, out, [])
        else (false, out,
          "Positional params not supported; expected key=value".data)
      | ch :: rs =>
        if ch == ',' then
          if trim tok = [] then paramLoop f rs out
          else (false, out,
            "Positional params not supported; expected key=value".data)
        else
          let key := trim tok
          let vtok := rs.takeWhile notComma
          let r2 := rs.dropWhile notComma
          let val := trim vtok
          if key = [] then (false, out, "Empty param key".data)
          else
            let out' := out.setParam key val
            match r2 with
            | ',' :: rs2 => paramLoop f rs2 out'
            | _ => paramLoop f r2 out'

/-- The `parse` of part_000 (STL build), with the C++ output-parameter
signature: it takes the caller's `Command` and error string and returns
(success, final command, final error). -/
def parse (input : List Char) (out0 : Command) (err0 : List Char) :
    Bool × Command × List Char :=
  let out := out0.clear
  if !(prefixOk input) then (false, out, "Missing prefix \x27!!\x27".data)
  else if suffixBad input then (false, out, "Missing suffix \x27##\x27".data)
  else
    let mkc := splitHeader (headerOf input)
    let out1 : Command := { out with msgKind := mkc.1, command := mkc.2 }
    if mkc.2 = [] then (false, out1, "Empty command".data)
    else
      match firstIdx (fun c => c == obrace) input with
      | none => (true, out1, [])
      | some bo =>
        match lastIdx (fun c => c == cbrace) input with
        | none => (false, out1, "Malformed braces".data)
        | some bc =>
          if bc < bo then (false, out1, "Malformed braces".data)
          else
            let inside := sub input (bo + 1) bc
            paramLoop (inside.length + 1) inside out1

end P0

namespace ABounded

/-- The Arduino `setParam` of the bounded builds (fixed array of
`CMDLIB_MAX_PARAMS` entries plus a count, modelled as the list of live
entries): update in place when the key exists, refuse to grow past the
configured maximum otherwise. -/
def setParam (maxParams : Nat) (l : List (List Char × List Char))
    (k v : List Char) : Bool × List (List Char × List Char) :=
  if k ∈ l.map Prod.fst then (true, updateAssoc l k v)
  else if maxParams ≤ l.length then (false, l)
  else (true, l ++ [(k, v)])

end ABounded

namespace M

/-- Modelled from the spec: the `Command` of the multi-hop core library
`CommandLibary/CmdLib.h`, whose implementation file is missing from the
sources (only its README and test harness are present) — routing headers,
message kind, command name, insertion-ordered named parameters. -/
structure Command where
  headers : List (List Char)
  msgKind : List Char
  command : List Char
  params : List (List Char × List Char)
deriving DecidableEq

/-- Modelled from the spec: a closing brace appears with no opening brace
before it (one arm of `locateFrame`'s `FramingError`). -/
def strayClose : List Char → Bool
  | [] => false
  | c :: t => if c == cbrace then true else if c == obrace then false else strayClose t

/-- Modelled from the spec: an opening brace with no matching closing
brace at or after it (the other framing arm). -/
def unmatchedOpen : List Char → Bool
  | [] => false
  | c :: t => if c == obrace && !(t.contains cbrace) then true else unmatchedOpen t

/-- Modelled from the spec: the combined brace well-formedness test of
`locateFrame`. -/
def malformedBraces (s : List Char) : Bool := strayClose s || unmatchedOpen s

/-- Modelled from the spec: the header resolution rule — one part is the
command name alone; with two or more parts the last is the command name,
the one before it the message kind, and the earlier parts the routing
chain in order. Returns (routing chain, message kind, command name). -/
def resolveParts (parts : List (List Char)) :
    List (List Char) × List Char × List Char :=
  match parts.reverse with
  | [] => ([], [], [])
  | [c] => ([], [], c)
  | c :: k :: rest => (rest.reverse, k, c)

/-- Modelled from the spec: the parameter tokenizer `splitParams` —
comma-separated tokens, each `key=value` or a bare flag key; unquoted
values run to the next comma and are trimmed; quoted values run to the
matching quote, keep commas and whitespace verbatim, and lose the quote
characters; a token with `=` but an empty key is an error. The scan is
structural recursion on a fuel bound, always called with more fuel than
remaining characters. -/
def splitParams : Nat → List Char → List (List Char × List Char) →
    Except (List Char) (List (List Char × List Char))
  | 0, _, acc => .ok acc
  | Nat.succ f, rest, acc =>
    let r := rest.dropWhile isspace
    match r with
    | [] => .ok acc
    | _ :: _ =>
      let tok := r.takeWhile keyChar
      let r1 := r.dropWhile keyChar
      match r1 with
      | [] =>
        let k := trim tok
        .ok (if k = [] then acc else updateAssoc acc k [])
      | ch :: rs =>
        if ch == ',' then
          let k := trim tok
          splitParams f rs (if k = [] then acc else updateAssoc acc k [])
        else
          let key := trim tok
          if key = [] then .error "Empty param key".data
          else
            match rs with
            | q :: rs' =>
              if q == dquote || q == squote then
                let vtok := rs'.takeWhile (fun c => !(c == q))
                let r2 := rs'.dropWhile (fun c => !(c == q))
                let r3 := match r2 with | _ :: t => t | [] => ([] : List Char)
                let acc' := updateAssoc acc key vtok
                match r3 with
                | ',' :: rs2 => splitParams f rs2 acc'
                | _ => splitParams f r3 acc'
              else
                let vtok := rs.takeWhile notComma
                let r2 := rs.dropWhile notComma
                let acc' := updateAssoc acc key (trim vtok)
                match r2 with
                | ',' :: rs2 => splitParams f rs2 acc'
                | _ => splitParams f r2 acc'
            | [] =>
              .ok (updateAssoc acc key [])

/-- Modelled from the spec: the parser pipeline of the multi-hop core
library — framing checks (prefixes, suffixes, braces), header extraction
between the prefix and the first opening brace or the suffix with one
trailing colon stripped, colon splitting with per-part trimming, the
resolution rule, the empty-command check, then parameter splitting. -/
def parse (input : List Char) : Except (List Char) Command :=
  if !(prefixOk input) then .error "Missing prefix \x27!!\x27".data
  else if !("##".data.isSuffixOf input) then .error "Missing suffix \x27##\x27".data
  else if malformedBraces input then .error "Malformed braces".data
  else
    let headerEnd :=
      match firstIdx (fun c => c == obrace) input with
      | some i => i
      | none => input.length - 2
    let h0 := sub input 2 headerEnd
    let h1 := if h0.getLast? = some ':' then h0.dropLast else h0
    let parts := (splitOnChar ':' h1).map trim
    let rkc := resolveParts parts
    if rkc.2.2 = [] then .error "Empty command".data
    else
      match firstIdx (fun c => c == obrace) input with
      | none => .ok ⟨rkc.1, rkc.2.1, rkc.2.2, []⟩
      | some bo =>
        match lastIdx (fun c => c == cbrace) input with
        | none => .error "Malformed braces".data
        | some bc =>
          let inside := sub input (bo + 1) bc
          match splitParams (inside.length + 1) inside [] with
          | .ok ps => .ok ⟨rkc.1, rkc.2.1, rkc.2.2, ps⟩
          | .error e => .error e

end M

/-! Helper lemmas about the scanning primitives. -/

theorem length_dropWhile_le' (p : Char → Bool) (l : List Char) :
    (l.dropWhile p).length ≤ l.length := by
  induction l with
  | nil => simp [List.dropWhile]
  | cons c t ih => by_cases h : p c <;> simp [List.dropWhile, h] <;> omega

theorem takeWhile_append_of_all (p : Char → Bool) (xs ys : List Char)
    (h : ∀ a ∈ xs, p a = true) :
    (xs ++ ys).takeWhile p = xs ++ ys.takeWhile p := by
  induction xs with
  | nil => simp
  | cons c t ih =>
    have hc : p c = true := h c (by simp)
    simp only [List.cons_append, List.takeWhile_cons, hc, if_true]
    rw [ih (fun a ha => h a (by simp [ha]))]

theorem dropWhile_append_of_all (p : Char → Bool) (xs ys : List Char)
    (h : ∀ a ∈ xs, p a = true) :
    (xs ++ ys).dropWhile p = ys.dropWhile p := by
  induction xs with
  | nil => simp
  | cons c t ih =>
    have hc : p c = true := h c (by simp)
    simp only [List.cons_append, List.dropWhile_cons, hc, if_true]
    exact ih (fun a ha => h a (by simp [ha]))

theorem takeWhile_cons_neg (p : Char → Bool) (c : Char) (t : List Char)
    (h : p c = false) : (c :: t).takeWhile p = [] := by
  simp [List.takeWhile_cons, h]

theorem dropWhile_cons_neg (p : Char → Bool) (c : Char) (t : List Char)
    (h : p c = false) : (c :: t).dropWhile p = c :: t := by
  simp [List.dropWhile_cons, h]

theorem firstIdx_eq_none_iff (p : Char → Bool) (s : List Char) :
    firstIdx p s = none ↔ ∀ c ∈ s, p c = false := by
  induction s with
  | nil => simp [firstIdx]
  | cons c t ih =>
    by_cases h : p c
    · simp [firstIdx, h]
    · simp only [firstIdx, h, if_false, List.mem_cons]
      constructor
      · intro hn a ha
        rcases ha with rfl | ha
        · exact Bool.eq_false_iff.mpr h
        · exact ih.mp (by cases hfi : firstIdx p t <;> simp [hfi] at hn ⊢) a ha
      · intro hall
        rw [ih.mpr (fun a ha => hall a (Or.inr ha))]
        rfl

theorem firstIdx_append_of_all_neg (p : Char → Bool) (xs ys : List Char)
    (h : ∀ c ∈ xs, p c = false) :
    firstIdx p (xs ++ ys) = (firstIdx p ys).map (· + xs.length) := by
  induction xs with
  | nil => simp [Option.map_id']
  | cons c t ih =>
    have hc : p c = false := h c (by simp)
    simp only [List.cons_append, firstIdx, hc, List.append_eq]
    rw [ih (fun a ha => h a (by simp [ha]))]
    cases firstIdx p ys <;> simp [List.length_cons] <;> omega

theorem firstIdx_append_cons (p : Char → Bool) (xs ys : List Char) (y : Char)
    (h : ∀ c ∈ xs, p c = false) (hy : p y = true) :
    firstIdx p (xs ++ y :: ys) = some xs.length := by
  rw [firstIdx_append_of_all_neg p xs (y :: ys) h]
  simp [firstIdx, hy]

theorem firstIdx_eq_none_of_all (p : Char → Bool) (s : List Char)
    (h : ∀ c ∈ s, p c = false) : firstIdx p s = none :=
  (firstIdx_eq_none_iff p s).mpr h

theorem lastIdx_decomp (p : Char → Bool) (xs ys : List Char) (y : Char)
    (h : ∀ c ∈ ys, p c = false) (hy : p y = true) :
    lastIdx p (xs ++ y :: ys) = some xs.length := by
  unfold lastIdx
  have hrev : (xs ++ y :: ys).reverse = ys.reverse ++ y :: xs.reverse := by
    simp
  rw [hrev, firstIdx_append_cons p ys.reverse xs.reverse y
    (fun c hc => h c (List.mem_reverse.mp hc)) hy]
  simp only [List.length_append, List.length_cons, List.length_reverse]
  congr 1
  omega

theorem lastIdx_eq_none_of_all (p : Char → Bool) (s : List Char)
    (h : ∀ c ∈ s, p c = false) : lastIdx p s = none := by
  unfold lastIdx
  rw [firstIdx_eq_none_of_all p s.reverse (fun c hc => h c (List.mem_reverse.mp hc))]

theorem joinSep_cons_cons (sep a b : List Char) (u : List (List Char)) :
    joinSep sep (a :: b :: u) = a ++ sep ++ joinSep sep (b :: u) := rfl

theorem joinSep_snoc (sep x : List Char) (ps : List (List Char)) (h : ps ≠ []) :
    joinSep sep (ps ++ [x]) = joinSep sep ps ++ sep ++ x := by
  induction ps with
  | nil => exact absurd rfl h
  | cons a t ih =>
    cases t with
    | nil => simp [joinSep]
    | cons b u =>
      have ih' := ih (by simp)
      calc joinSep sep ((a :: b :: u) ++ [x])
          = joinSep sep (a :: b :: (u ++ [x])) := by simp
        _ = a ++ sep ++ joinSep sep (b :: (u ++ [x])) := joinSep_cons_cons ..
        _ = a ++ sep ++ joinSep sep ((b :: u) ++ [x]) := by simp
        _ = a ++ sep ++ (joinSep sep (b :: u) ++ sep ++ x) := by rw [ih']
        _ = joinSep sep (a :: b :: u) ++ sep ++ x := by
              rw [joinSep_cons_cons]; simp [List.append_assoc]

theorem mem_joinSep (sep : List Char) (ps : List (List Char)) (c : Char)
    (h : c ∈ joinSep sep ps) : c ∈ sep ∨ ∃ p ∈ ps, c ∈ p := by
  induction ps with
  | nil => simp [joinSep] at h
  | cons a t ih =>
    cases t with
    | nil =>
      simp only [joinSep] at h
      exact Or.inr ⟨a, by simp, h⟩
    | cons b u =>
      simp only [joinSep, List.append_assoc, List.mem_append] at h
      rcases h with h | h | h
      · exact Or.inr ⟨a, by simp, h⟩
      · exact Or.inl h
      · rcases ih h with h' | ⟨p, hp, hc⟩
        · exact Or.inl h'
        · exact Or.inr ⟨p, by simp [hp], hc⟩

theorem splitOnChar_ne_nil (c : Char) (l : List Char) : splitOnChar c l ≠ [] := by
  induction l with
  | nil => simp [splitOnChar]
  | cons x xs ih =>
    simp only [splitOnChar]
    cases h : splitOnChar c xs with
    | nil => simp
    | cons h' t' => by_cases hx : x == c <;> simp [hx]

theorem splitOnChar_of_not_mem (c : Char) (x : List Char)
    (h : ∀ ch ∈ x, ch ≠ c) : splitOnChar c x = [x] := by
  induction x with
  | nil => rfl
  | cons a t ih =>
    have ha : (a == c) = false := beq_eq_false_iff_ne.mpr (h a (by simp))
    simp only [splitOnChar]
    rw [ih (fun ch hch => h ch (by simp [hch]))]
    simp [ha]

theorem splitOnChar_append_cons (c : Char) (x t : List Char)
    (h : ∀ ch ∈ x, ch ≠ c) :
    splitOnChar c (x ++ c :: t) = x :: splitOnChar c t := by
  induction x with
  | nil =>
    simp only [List.nil_append, splitOnChar]
    cases hs : splitOnChar c t with
    | nil => exact absurd hs (splitOnChar_ne_nil c t)
    | cons h' t' => simp
  | cons a u ih =>
    have ha : (a == c) = false := beq_eq_false_iff_ne.mpr (h a (by simp))
    simp only [List.cons_append, splitOnChar, List.append_eq]
    rw [ih (fun ch hch => h ch (by simp [hch]))]
    simp [ha]

theorem trim_nil : trim [] = [] := rfl

theorem length_trim_le (s : List Char) : (trim s).length ≤ s.length := by
  unfold trim
  calc ((s.dropWhile isspace).reverse.dropWhile isspace).reverse.length
      = ((s.dropWhile isspace).reverse.dropWhile isspace).length := by
        rw [List.length_reverse]
    _ ≤ (s.dropWhile isspace).reverse.length := length_dropWhile_le' ..
    _ = (s.dropWhile isspace).length := by rw [List.length_reverse]
    _ ≤ s.length := length_dropWhile_le' ..

theorem head_not_space_of_trim_eq (s : List Char) (c : Char) (t : List Char)
    (hfix : trim s = s) (hs : s = c :: t) : isspace c = false := by
  by_contra h
  have hc : isspace c = true := by
    cases hic : isspace c
    · exact absurd hic h
    · rfl
  have h1 : s.dropWhile isspace = t.dropWhile isspace := by
    rw [hs, List.dropWhile_cons, hc]
    simp
  have h2 : (trim s).length ≤ t.length := by
    unfold trim
    rw [h1]
    calc ((t.dropWhile isspace).reverse.dropWhile isspace).reverse.length
        = ((t.dropWhile isspace).reverse.dropWhile isspace).length := by
          rw [List.length_reverse]
      _ ≤ (t.dropWhile isspace).reverse.length := length_dropWhile_le' ..
      _ = (t.dropWhile isspace).length := by rw [List.length_reverse]
      _ ≤ t.length := length_dropWhile_le' ..
  rw [hfix, hs] at h2
  simp at h2

theorem updateAssoc_of_not_mem (l : List (List Char × List Char))
    (k v : List Char) (h : k ∉ l.map Prod.fst) :
    updateAssoc l k v = l ++ [(k, v)] := by
  induction l with
  | nil => rfl
  | cons p t ih =>
    have hne : p.1 ≠ k := by
      intro he
      exact h (by simp [← he])
    simp only [updateAssoc, hne, if_false]
    rw [ih (fun hm => h (by simp [hm]))]
    rfl

theorem updateAssoc_keys_of_mem (l : List (List Char × List Char))
    (k v : List Char) (h : k ∈ l.map Prod.fst) :
    (updateAssoc l k v).map Prod.fst = l.map Prod.fst := by
  induction l with
  | nil => simp at h
  | cons p t ih =>
    by_cases hp : p.1 = k
    · simp [updateAssoc, hp]
    · have hm : k ∈ t.map Prod.fst := by
        rcases List.mem_map.mp h with ⟨q, hq, hfst⟩
        rcases List.mem_cons.mp hq with rfl | hq'
        · exact absurd hfst hp
        · exact List.mem_map.mpr ⟨q, hq', hfst⟩
      simp [updateAssoc, hp, ih hm]

theorem updateAssoc_length_of_mem (l : List (List Char × List Char))
    (k v : List Char) (h : k ∈ l.map Prod.fst) :
    (updateAssoc l k v).length = l.length := by
  have := updateAssoc_keys_of_mem l k v h
  have h1 : ((updateAssoc l k v).map Prod.fst).length = (l.map Prod.fst).length := by
    rw [this]
  simpa using h1

theorem lookupD_updateAssoc_self (l : List (List Char × List Char))
    (k v d : List Char) : lookupD (updateAssoc l k v) k d = v := by
  induction l with
  | nil => simp [updateAssoc, lookupD, List.find?]
  | cons p t ih =>
    by_cases hp : p.1 = k
    · simp [updateAssoc, hp, lookupD, List.find?]
    · have hb : (p.1 == k) = false := beq_eq_false_iff_ne.mpr hp
      simp only [updateAssoc, hp, if_false]
      simpa [lookupD, List.find?, hb] using ih

theorem lookupD_updateAssoc_other (l : List (List Char × List Char))
    (k v k' d : List Char) (h : k' ≠ k) :
    lookupD (updateAssoc l k v) k' d = lookupD l k' d := by
  induction l with
  | nil =>
    have hb : (k == k') = false := beq_eq_false_iff_ne.mpr (fun he => h he.symm)
    simp [updateAssoc, lookupD, List.find?, hb]
  | cons p t ih =>
    by_cases hp : p.1 = k
    · have hb : (k == k') = false := beq_eq_false_iff_ne.mpr (fun he => h he.symm)
      have hb' : (p.1 == k') = false := beq_eq_false_iff_ne.mpr (by rw [hp]; exact fun he => h he.symm)
      simp [updateAssoc, hp, lookupD, List.find?, hb, hb']
    · by_cases hpk : p.1 = k'
      · have hb : (p.1 == k') = true := beq_iff_eq.mpr hpk
        simp [updateAssoc, hp, lookupD, List.find?, hb]
      · have hb : (p.1 == k') = false := beq_eq_false_iff_ne.mpr hpk
        simp only [updateAssoc, hp, if_false]
        simpa [lookupD, List.find?, hb] using ih

theorem prefixOk_append (r : List Char) : prefixOk ("!!".data ++ r) = true :=
  List.isPrefixOf_iff_prefix.mpr (List.prefix_append _ r)

theorem prefixOk_chars (s : List Char) (h : prefixOk s = true) :
    ∃ r, s = '!' :: '!' :: r := by
  rcases List.isPrefixOf_iff_prefix.mp h with ⟨r, hr⟩
  exact ⟨r, hr.symm⟩

theorem isSuffixOf_append (r : List Char) :
    "##".data.isSuffixOf (r ++ "##".data) = true :=
  List.isSuffixOf_iff_suffix.mpr (List.suffix_append r _)

theorem splitOnChar_joinSep (c : Char) (ps : List (List Char)) (h : ps ≠ [])
    (hall : ∀ p ∈ ps, ∀ ch ∈ p, ch ≠ c) :
    splitOnChar c (joinSep [c] ps) = ps := by
  induction ps with
  | nil => exact absurd rfl h
  | cons a t ih =>
    cases t with
    | nil => exact splitOnChar_of_not_mem c a (hall a (by simp))
    | cons b u =>
      have : joinSep [c] (a :: b :: u) = a ++ c :: joinSep [c] (b :: u) := by
        simp [joinSep]
      rw [this, splitOnChar_append_cons c a _ (hall a (by simp))]
      rw [ih (by simp) (fun p hp => hall p (by simp [hp]))]

theorem plainChar_spec (ch : Char) (h : plainChar ch = true) :
    (ch == ',') = false ∧ (ch == '=') = false ∧ (ch == ':') = false ∧
    (ch == obrace) = false ∧ (ch == cbrace) = false := by
  unfold plainChar at h
  simp only [Bool.not_eq_eq_eq_not, Bool.not_true, Bool.or_eq_false_iff] at h
  exact ⟨h.1.1.1.1, h.1.1.1.2, h.1.1.2, h.1.2, h.2⟩

theorem goodStr_spec (s : List Char) (h : goodStr s = true) :
    trim s = s ∧ ∀ ch ∈ s, plainChar ch = true := by
  unfold goodStr at h
  rcases Bool.and_eq_true_iff.mp h with ⟨h1, h2⟩
  exact ⟨beq_iff_eq.mp h1, fun ch hch => List.all_eq_true.mp h2 ch hch⟩

theorem mem_of_getLast?_eq (l : List Char) (c : Char)
    (h : l.getLast? = some c) : c ∈ l := by
  rcases List.mem_getLast?_eq_getLast (Option.mem_def.mpr h) with ⟨hne, rfl⟩
  exact List.getLast_mem hne

theorem paramLoop_nil (f : Nat) (out : P0.Command) :
    P0.paramLoop f [] out = (true, out, []) := by
  cases f <;> simp [P0.paramLoop]

theorem paramBody_single (k v : List Char) :
    paramBody [(k, v)] = k ++ '=' :: v := rfl

theorem paramBody_cons (k v : List Char) (r : List Char × List Char)
    (t : List (List Char × List Char)) :
    paramBody ((k, v) :: r :: t) = (k ++ '=' :: v) ++ ',' :: paramBody (r :: t) := by
  simp [paramBody, joinSep, List.append_assoc]
theorem suffix_drop_bridge (s : List Char) (h2 : 2 ≤ s.length) :
    "##".data.isSuffixOf s = true ↔ s.drop (s.length - 2) = "##".data := by
  rw [List.isSuffixOf_iff_suffix]
  constructor
  · rintro ⟨t, rfl⟩
    have hl : (t ++ "##".data).length - 2 = t.length := by simp
    rw [hl, List.drop_left]
  · intro h
    refine ⟨s.take (s.length - 2), ?_⟩
    conv_rhs => rw [← List.take_append_drop (s.length - 2) s]
    rw [h]

theorem suffixBad_of_not_suffix (s : List Char) (hp : prefixOk s = true)
    (hs : "##".data.isSuffixOf s = false) : P0.suffixBad s = true := by
  rcases prefixOk_chars s hp with ⟨r, rfl⟩
  simp only [P0.suffixBad, Bool.or_eq_true, decide_eq_true_eq, Bool.not_eq_true',
    beq_eq_false_iff_ne, ne_eq]
  by_cases h4 : ('!' :: '!' :: r).length < 4
  · exact Or.inl (by simpa using h4)
  · right
    intro he
    have h2 : 2 ≤ ('!' :: '!' :: r).length := by simp
    have he2 : ('!' :: '!' :: r).drop (('!' :: '!' :: r).length - 2) = "##".data := by
      show List.drop _ _ = _
      simp only [List.length_cons]
      have : r.length + 1 + 1 - 2 = r.length := by omega
      rw [this]
      exact he
    have := (suffix_drop_bridge _ h2).mpr he2
    rw [this] at hs
    exact Bool.noConfusion hs
theorem paramLoop_fields (f : Nat) :
    ∀ (rest : List Char) (out : P0.Command),
      ((P0.paramLoop f rest out).2.1).msgKind = out.msgKind ∧
      ((P0.paramLoop f rest out).2.1).command = out.command := by
  induction f with
  | zero => intro rest out; simp [P0.paramLoop]
  | succ f ih =>
    intro rest out
    simp only [P0.paramLoop]
    split
    · simp
    · split
      · split <;> simp
      · split
        · split
          · exact ih _ _
          · simp
        · split
          · simp
          · split
            · exact ⟨((ih _ _).1).trans (by simp [P0.Command.setParam]),
                ((ih _ _).2).trans (by simp [P0.Command.setParam])⟩
            · exact ⟨((ih _ _).1).trans (by simp [P0.Command.setParam]),
                ((ih _ _).2).trans (by simp [P0.Command.setParam])⟩
theorem keyChar_of_plain (ch : Char) (h : plainChar ch = true) : keyChar ch = true := by
  obtain ⟨h1, h2, -, -, -⟩ := plainChar_spec ch h
  simp [keyChar, h1, h2]

theorem notComma_of_plain (ch : Char) (h : plainChar ch = true) : notComma ch = true := by
  obtain ⟨h1, -⟩ := plainChar_spec ch h
  simp [notComma, h1]

theorem paramLoop_step_cons (f : Nat) (out : P0.Command) (k v X : List Char)
    (hgk : goodStr k = true) (hkne : k ≠ []) (hgv : goodStr v = true) :
    P0.paramLoop (f + 1) (k ++ '=' :: (v ++ ',' :: X)) out =
      P0.paramLoop f X (out.setParam k v) := by
  obtain ⟨hktrim, hkplain⟩ := goodStr_spec k hgk
  obtain ⟨hvtrim, hvplain⟩ := goodStr_spec v hgv
  cases k with
  | nil => exact absurd rfl hkne
  | cons kc kt =>
    have hksp := head_not_space_of_trim_eq _ kc kt hktrim rfl
    have hkall : ∀ a ∈ kc :: kt, keyChar a = true :=
      fun a ha => keyChar_of_plain a (hkplain a ha)
    have hvall : ∀ a ∈ v, notComma a = true :=
      fun a ha => notComma_of_plain a (hvplain a ha)
    have h_sp : ((kc :: kt) ++ '=' :: (v ++ ',' :: X)).dropWhile isspace =
        (kc :: kt) ++ '=' :: (v ++ ',' :: X) := by
      rw [List.cons_append]
      exact dropWhile_cons_neg _ _ _ hksp
    have h_take : ((kc :: kt) ++ '=' :: (v ++ ',' :: X)).takeWhile keyChar = kc :: kt := by
      rw [takeWhile_append_of_all _ _ _ hkall, takeWhile_cons_neg _ _ _ rfl, List.append_nil]
    have h_dropk : ((kc :: kt) ++ '=' :: (v ++ ',' :: X)).dropWhile keyChar =
        '=' :: (v ++ ',' :: X) := by
      rw [dropWhile_append_of_all _ _ _ hkall]
      exact dropWhile_cons_neg _ _ _ rfl
    have h_vtake : (v ++ ',' :: X).takeWhile notComma = v := by
      rw [takeWhile_append_of_all _ _ _ hvall, takeWhile_cons_neg _ _ _ rfl, List.append_nil]
    have h_vdrop : (v ++ ',' :: X).dropWhile notComma = ',' :: X := by
      rw [dropWhile_append_of_all _ _ _ hvall]
      exact dropWhile_cons_neg _ _ _ rfl
    have hcomma : ('=' == ',') = false := rfl
    simp only [List.cons_append] at h_sp h_take h_dropk ⊢
    simp only [P0.paramLoop, h_sp, h_take, h_dropk, h_vtake, h_vdrop, hktrim, hvtrim,
      hcomma, Bool.false_eq_true, if_false]
    rw [if_neg (by simp)]

theorem paramLoop_step_end (f : Nat) (out : P0.Command) (k v : List Char)
    (hgk : goodStr k = true) (hkne : k ≠ []) (hgv : goodStr v = true) :
    P0.paramLoop (f + 1) (k ++ '=' :: v) out = (true, out.setParam k v, []) := by
  obtain ⟨hktrim, hkplain⟩ := goodStr_spec k hgk
  obtain ⟨hvtrim, hvplain⟩ := goodStr_spec v hgv
  cases k with
  | nil => exact absurd rfl hkne
  | cons kc kt =>
    have hksp := head_not_space_of_trim_eq _ kc kt hktrim rfl
    have hkall : ∀ a ∈ kc :: kt, keyChar a = true :=
      fun a ha => keyChar_of_plain a (hkplain a ha)
    have hvall : ∀ a ∈ v, notComma a = true :=
      fun a ha => notComma_of_plain a (hvplain a ha)
    have h_sp : ((kc :: kt) ++ '=' :: v).dropWhile isspace = (kc :: kt) ++ '=' :: v := by
      rw [List.cons_append]
      exact dropWhile_cons_neg _ _ _ hksp
    have h_take : ((kc :: kt) ++ '=' :: v).takeWhile keyChar = kc :: kt := by
      rw [takeWhile_append_of_all _ _ _ hkall, takeWhile_cons_neg _ _ _ rfl, List.append_nil]
    have h_dropk : ((kc :: kt) ++ '=' :: v).dropWhile keyChar = '=' :: v := by
      rw [dropWhile_append_of_all _ _ _ hkall]
      exact dropWhile_cons_neg _ _ _ rfl
    have h_vtake : v.takeWhile notComma = v := List.takeWhile_eq_self_iff.mpr hvall
    have h_vdrop : v.dropWhile notComma = [] := List.dropWhile_eq_nil_iff.mpr hvall
    have hcomma : ('=' == ',') = false := rfl
    simp only [List.cons_append] at h_sp h_take h_dropk ⊢
    simp only [P0.paramLoop, h_sp, h_take, h_dropk, h_vtake, h_vdrop, hktrim, hvtrim,
      hcomma, Bool.false_eq_true, if_false]
    rw [if_neg (by simp)]
    exact paramLoop_nil f _
theorem paramLoop_roundtrip (ps : List (List Char × List Char)) :
    ∀ (fuel : Nat) (out : P0.Command),
      (∀ p ∈ ps, goodStr p.1 = true ∧ p.1 ≠ [] ∧ goodStr p.2 = true) →
      (∀ p ∈ ps, p.1 ∉ out.params.map Prod.fst) →
      (ps.map Prod.fst).Nodup →
      (paramBody ps).length < fuel →
      P0.paramLoop fuel (paramBody ps) out =
        (true, { out with params := out.params ++ ps }, []) := by
  induction ps with
  | nil =>
    intro fuel out hg hd hn hf
    cases fuel with
    | zero => simp [paramBody, joinSep] at hf
    | succ f => simp [paramBody, joinSep, P0.paramLoop]
  | cons kv rest ih =>
    intro fuel out hg hd hn hf
    obtain ⟨k, v⟩ := kv
    have hgk : goodStr k = true := (hg (k, v) (by simp)).1
    have hkne : k ≠ [] := (hg (k, v) (by simp)).2.1
    have hgv : goodStr v = true := (hg (k, v) (by simp)).2.2
    have hknotmem : k ∉ out.params.map Prod.fst := hd (k, v) (by simp)
    have hset : out.setParam k v = { out with params := out.params ++ [(k, v)] } := by
      simp [P0.Command.setParam, updateAssoc_of_not_mem out.params k v hknotmem]
    cases fuel with
    | zero => simp at hf
    | succ f =>
      cases hre : rest with
      | nil =>
        subst hre
        rw [paramBody_single, paramLoop_step_end f out k v hgk hkne hgv, hset]
      | cons r0 rs0 =>
        subst hre
        have hbody : paramBody ((k, v) :: r0 :: rs0) =
            k ++ '=' :: (v ++ ',' :: paramBody (r0 :: rs0)) := by
          rw [paramBody_cons, List.append_assoc, List.cons_append]
        rw [hbody] at hf ⊢
        rw [paramLoop_step_cons f out k v _ hgk hkne hgv, hset]
        have hnodup : ((r0 :: rs0).map Prod.fst).Nodup :=
          (List.nodup_cons.mp (by simpa using hn)).2
        have hknotin : k ∉ (r0 :: rs0).map Prod.fst :=
          (List.nodup_cons.mp (by simpa using hn)).1
        have ihh := ih f { out with params := out.params ++ [(k, v)] }
          (fun p hp => hg p (List.mem_cons_of_mem _ hp))
          (by
            intro p hp
            simp only [List.map_append, List.mem_append]
            rintro (hmem | hmem)
            · exact hd p (List.mem_cons_of_mem _ hp) hmem
            · have hpk : p.1 = k := by simpa using hmem
              exact hknotin (hpk ▸ List.mem_map.mpr ⟨p, hp, rfl⟩))
          hnodup
          (by
            simp only [List.length_append, List.length_cons] at hf ⊢
            omega)
        rw [ihh]
        simp [List.append_assoc]
theorem notObrace_of_plain (ch : Char) (h : plainChar ch = true) : (ch == obrace) = false :=
  (plainChar_spec ch h).2.2.2.1

theorem notCbrace_of_plain (ch : Char) (h : plainChar ch = true) : (ch == cbrace) = false :=
  (plainChar_spec ch h).2.2.2.2

theorem hash_mem (ch : Char) (hch : ch ∈ ("##".data : List Char)) : ch = '#' := by
  rw [show ("##".data : List Char) = ['#', '#'] from rfl] at hch
  rcases List.mem_cons.mp hch with rfl | hch
  · rfl
  rcases List.mem_cons.mp hch with rfl | hch
  · rfl
  · simp at hch

theorem splitHeader_nokind (c : List Char)
    (hcolon : ∀ ch ∈ c, (ch == ':') = false) :
    P0.splitHeader c = ([], trim c) := by
  unfold P0.splitHeader
  rw [lastIdx_eq_none_of_all _ _ hcolon]

theorem splitHeader_kind (mk c : List Char)
    (hcolon : ∀ ch ∈ c, (ch == ':') = false) :
    P0.splitHeader (mk ++ ':' :: c) = (trim mk, trim c) := by
  have h1 : (mk ++ ':' :: c).take mk.length = mk := List.take_left mk _
  have h2 : (mk ++ ':' :: c).drop (mk.length + 1) = c := by
    have h3 : mk ++ ':' :: c = (mk ++ [':']) ++ c := by simp
    rw [h3]
    exact List.drop_left' (by simp)
  unfold P0.splitHeader
  rw [lastIdx_decomp _ mk c ':' hcolon rfl]
  show (trim ((mk ++ ':' :: c).take mk.length),
        trim ((mk ++ ':' :: c).drop (mk.length + 1))) = _
  rw [h1, h2]

theorem noBrace_frame_chars (Hd : List Char)
    (hOb : ∀ ch ∈ Hd, (ch == obrace) = false) :
    ∀ ch ∈ ('!' :: '!' :: Hd) ++ "##".data, (ch == obrace) = false := by
  intro ch hch
  rcases List.mem_append.mp hch with hch | hch
  · rcases List.mem_cons.mp hch with rfl | hch
    · rfl
    rcases List.mem_cons.mp hch with rfl | hch
    · rfl
    · exact hOb ch hch
  · rw [hash_mem ch hch]
    rfl

theorem frame_noparams (Hd : List Char)
    (hOb : ∀ ch ∈ Hd, (ch == obrace) = false)
    (hlast : Hd.getLast? ≠ some ':') :
    prefixOk (('!' :: '!' :: Hd) ++ "##".data) = true ∧
    P0.suffixBad (('!' :: '!' :: Hd) ++ "##".data) = false ∧
    firstIdx (fun c => c == obrace) (('!' :: '!' :: Hd) ++ "##".data) = none ∧
    P0.headerOf (('!' :: '!' :: Hd) ++ "##".data) = Hd := by
  refine ⟨prefixOk_append (Hd ++ "##".data), ?_, ?_, ?_⟩
  · have hdrop : (('!' :: '!' :: Hd) ++ "##".data).drop
        ((('!' :: '!' :: Hd) ++ "##".data).length - 2) = "##".data := by
      have hl : (('!' :: '!' :: Hd) ++ "##".data).length - 2 = ('!' :: '!' :: Hd).length := by
        simp
      rw [hl, List.drop_left]
    have hlen : ¬((('!' :: '!' :: Hd) ++ "##".data).length < 4) := by
      simp
    simp [P0.suffixBad, hdrop, hlen]
  · exact firstIdx_eq_none_of_all _ _ (noBrace_frame_chars Hd hOb)
  · unfold P0.headerOf
    have hend : P0.headerEndOf (('!' :: '!' :: Hd) ++ "##".data) = Hd.length + 2 := by
      unfold P0.headerEndOf
      rw [firstIdx_eq_none_of_all _ _ (noBrace_frame_chars Hd hOb)]
      simp
    rw [hend]
    have hsub : sub (('!' :: '!' :: Hd) ++ "##".data) 2 (Hd.length + 2) = Hd := by
      unfold sub
      rw [List.take_left' (by simp)]
      rfl
    rw [hsub, if_neg hlast]
theorem frame_params (Hd body : List Char)
    (hOb : ∀ ch ∈ Hd, (ch == obrace) = false)
    (hlast : Hd.getLast? ≠ some ':') :
    prefixOk (('!' :: '!' :: Hd) ++ obrace :: (body ++ cbrace :: "##".data)) = true ∧
    P0.suffixBad (('!' :: '!' :: Hd) ++ obrace :: (body ++ cbrace :: "##".data)) = false ∧
    firstIdx (fun c => c == obrace)
      (('!' :: '!' :: Hd) ++ obrace :: (body ++ cbrace :: "##".data)) =
      some (Hd.length + 2) ∧
    lastIdx (fun c => c == cbrace)
      (('!' :: '!' :: Hd) ++ obrace :: (body ++ cbrace :: "##".data)) =
      some (Hd.length + 3 + body.length) ∧
    P0.headerOf (('!' :: '!' :: Hd) ++ obrace :: (body ++ cbrace :: "##".data)) = Hd ∧
    sub (('!' :: '!' :: Hd) ++ obrace :: (body ++ cbrace :: "##".data))
      (Hd.length + 3) (Hd.length + 3 + body.length) = body := by
  have hback : ∀ ch ∈ ('!' :: '!' :: Hd), (ch == obrace) = false := by
    intro ch hch
    rcases List.mem_cons.mp hch with rfl | hch
    · rfl
    rcases List.mem_cons.mp hch with rfl | hch
    · rfl
    · exact hOb ch hch
  have hfi : firstIdx (fun c => c == obrace)
      (('!' :: '!' :: Hd) ++ obrace :: (body ++ cbrace :: "##".data)) =
      some (Hd.length + 2) := by
    rw [firstIdx_append_cons _ _ _ _ hback (beq_self_eq_true obrace)]
    simp
  have hAshape : ('!' :: '!' :: Hd) ++ obrace :: (body ++ cbrace :: "##".data) =
      (('!' :: '!' :: Hd) ++ obrace :: body) ++ cbrace :: "##".data := by
    simp
  have hli : lastIdx (fun c => c == cbrace)
      (('!' :: '!' :: Hd) ++ obrace :: (body ++ cbrace :: "##".data)) =
      some (Hd.length + 3 + body.length) := by
    rw [hAshape]
    rw [lastIdx_decomp (fun c => c == cbrace) (('!' :: '!' :: Hd) ++ obrace :: body)
      ("##".data) cbrace (fun ch hch => by rw [hash_mem ch hch]; rfl) rfl]
    congr 1
    simp
    omega
  refine ⟨prefixOk_append _, ?_, hfi, hli, ?_, ?_⟩
  · have hshape : ('!' :: '!' :: Hd) ++ obrace :: (body ++ cbrace :: "##".data) =
        ((('!' :: '!' :: Hd) ++ obrace :: (body ++ [cbrace]))) ++ "##".data := by
      simp
    have hdrop : ((('!' :: '!' :: Hd) ++ obrace :: (body ++ [cbrace])) ++ "##".data).drop
        (((('!' :: '!' :: Hd) ++ obrace :: (body ++ [cbrace])) ++ "##".data).length - 2) =
        "##".data := by
      have hl : ((('!' :: '!' :: Hd) ++ obrace :: (body ++ [cbrace])) ++ "##".data).length - 2 =
          (('!' :: '!' :: Hd) ++ obrace :: (body ++ [cbrace])).length := by
        simp
        omega
      rw [hl, List.drop_left]
    have hlen : ¬(((('!' :: '!' :: Hd) ++ obrace :: (body ++ [cbrace])) ++ "##".data).length < 4) := by
      simp
      omega
    rw [hshape]
    unfold P0.suffixBad
    rw [hdrop, decide_eq_false hlen]
    simp
  · unfold P0.headerOf
    have hend : P0.headerEndOf
        (('!' :: '!' :: Hd) ++ obrace :: (body ++ cbrace :: "##".data)) = Hd.length + 2 := by
      unfold P0.headerEndOf
      rw [hfi]
    rw [hend]
    have hsub : sub (('!' :: '!' :: Hd) ++ obrace :: (body ++ cbrace :: "##".data)) 2
        (Hd.length + 2) = Hd := by
      unfold sub
      rw [List.take_left' (by simp)]
      rfl
    rw [hsub, if_neg hlast]
  · unfold sub
    rw [hAshape, List.take_left' (by simp <;> omega)]
    have hA2 : ('!' :: '!' :: Hd) ++ obrace :: body =
        (('!' :: '!' :: Hd) ++ [obrace]) ++ body := by
      simp
    rw [hA2]
    exact List.drop_left' (by simp <;> omega)
/-- Claim C2 (amended): the round trip parse of toString restores the
command exactly, provided the message kind, the command name and every
parameter key and value contain none of the five delimiter characters
and carry no leading or trailing whitespace, the command name is
non-empty, and the parameter keys are non-empty and distinct. -/
theorem c2_round_trip (cmd o : P0.Command) (e : List Char)
    (hkind : goodStr cmd.msgKind = true)
    (hcmd : goodStr cmd.command = true) (hc : cmd.command ≠ [])
    (hps : ∀ p ∈ cmd.params, goodStr p.1 = true ∧ p.1 ≠ [] ∧ goodStr p.2 = true)
    (hnodup : (cmd.params.map Prod.fst).Nodup) :
    P0.parse (P0.Command.toString cmd) o e = (true, cmd, []) := by
  obtain ⟨mk, c, ps⟩ := cmd
  simp only at hkind hcmd hc hps hnodup
  obtain ⟨hkt, hkp⟩ := goodStr_spec _ hkind
  obtain ⟨hct, hcp⟩ := goodStr_spec _ hcmd
  have hccolon : ∀ ch ∈ c, (ch == ':') = false :=
    fun ch hch => (plainChar_spec ch (hcp ch hch)).2.2.1
  have hclast : c.getLast? ≠ some ':' := by
    intro h
    have hmem := mem_of_getLast?_eq c ':' h
    have := (plainChar_spec ':' (hcp ':' hmem)).2.2.1
    simp at this
  -- the header segment and its facts, by cases on the message kind
  by_cases hmk : mk = []
  · subst hmk
    have hOb : ∀ ch ∈ c, (ch == obrace) = false :=
      fun ch hch => notObrace_of_plain ch (hcp ch hch)
    have hsplit : P0.splitHeader c = ([], c) := by
      rw [splitHeader_nokind c hccolon, hct]
    by_cases hpsn : ps = []
    · subst hpsn
      have hS : P0.Command.toString ⟨[], c, []⟩ = ('!' :: '!' :: c) ++ "##".data := by
        simp [P0.Command.toString]
      rw [hS]
      obtain ⟨hpre, hbad, hfi, hhead⟩ := frame_noparams c hOb hclast
      simp only [P0.parse, P0.Command.clear, P0.Command.empty, hpre, Bool.not_true,
        Bool.false_eq_true, if_false, hbad, hhead, hsplit, hfi]
      rw [if_neg hc]
    · have hS : P0.Command.toString ⟨[], c, ps⟩ =
          ('!' :: '!' :: c) ++ obrace :: (paramBody ps ++ cbrace :: "##".data) := by
        simp [P0.Command.toString, hpsn]
      rw [hS]
      obtain ⟨hpre, hbad, hfi, hli, hhead, hsub⟩ := frame_params c (paramBody ps) hOb hclast
      have hsub' : sub (('!' :: '!' :: c) ++ obrace :: (paramBody ps ++ cbrace :: "##".data))
          (c.length + 2 + 1) (c.length + 3 + (paramBody ps).length) = paramBody ps := hsub
      simp only [P0.parse, P0.Command.clear, P0.Command.empty, hpre, Bool.not_true,
        Bool.false_eq_true, if_false, hbad, hhead, hsplit, hfi, hli]
      rw [if_neg hc, if_neg (by omega), hsub']
      have hloop := paramLoop_roundtrip ps ((paramBody ps).length + 1)
        { msgKind := [], command := c, params := [] } hps (by simp) hnodup (by omega)
      rw [hloop]
      simp
  · have hOb : ∀ ch ∈ mk ++ ':' :: c, (ch == obrace) = false := by
      intro ch hch
      rcases List.mem_append.mp hch with hch | hch
      · exact notObrace_of_plain ch (hkp ch hch)
      · rcases List.mem_cons.mp hch with rfl | hch
        · rfl
        · exact notObrace_of_plain ch (hcp ch hch)
    have hlast : (mk ++ ':' :: c).getLast? ≠ some ':' := by
      have hsh : mk ++ ':' :: c = (mk ++ [':']) ++ c := by simp
      rw [hsh, List.getLast?_append_of_ne_nil _ hc]
      exact hclast
    have hsplit : P0.splitHeader (mk ++ ':' :: c) = (mk, c) := by
      rw [splitHeader_kind mk c hccolon, hkt, hct]
    by_cases hpsn : ps = []
    · subst hpsn
      have hS : P0.Command.toString ⟨mk, c, []⟩ =
          ('!' :: '!' :: (mk ++ ':' :: c)) ++ "##".data := by
        simp [P0.Command.toString, hmk]
      rw [hS]
      obtain ⟨hpre, hbad, hfi, hhead⟩ := frame_noparams (mk ++ ':' :: c) hOb hlast
      simp only [P0.parse, P0.Command.clear, P0.Command.empty, hpre, Bool.not_true,
        Bool.false_eq_true, if_false, hbad, hhead, hsplit, hfi]
      rw [if_neg hc]
    · have hS : P0.Command.toString ⟨mk, c, ps⟩ =
          ('!' :: '!' :: (mk ++ ':' :: c)) ++
            obrace :: (paramBody ps ++ cbrace :: "##".data) := by
        simp [P0.Command.toString, hmk, hpsn]
      rw [hS]
      obtain ⟨hpre, hbad, hfi, hli, hhead, hsub⟩ :=
        frame_params (mk ++ ':' :: c) (paramBody ps) hOb hlast
      have hsub' : sub (('!' :: '!' :: (mk ++ ':' :: c)) ++
            obrace :: (paramBody ps ++ cbrace :: "##".data))
          ((mk ++ ':' :: c).length + 2 + 1)
          ((mk ++ ':' :: c).length + 3 + (paramBody ps).length) = paramBody ps := hsub
      simp only [P0.parse, P0.Command.clear, P0.Command.empty, hpre, Bool.not_true,
        Bool.false_eq_true, if_false, hbad, hhead, hsplit, hfi, hli]
      rw [if_neg hc, if_neg (by omega), hsub']
      have hloop := paramLoop_roundtrip ps ((paramBody ps).length + 1)
        { msgKind := mk, command := c, params := [] } hps (by simp) hnodup (by omega)
      rw [hloop]
      simp
theorem partOk_spec (ch : Char) (h : partOk ch = true) :
    (ch == ':') = false ∧ (ch == obrace) = false ∧ (ch == cbrace) = false := by
  unfold partOk at h
  simp only [Bool.not_eq_eq_eq_not, Bool.not_true, Bool.or_eq_false_iff] at h
  exact ⟨h.1.1, h.1.2, h.2⟩

theorem map_trim_id (l : List (List Char)) (h : ∀ p ∈ l, trim p = p) :
    l.map trim = l := by
  induction l with
  | nil => rfl
  | cons a t ih =>
    rw [List.map_cons, h a (by simp), ih (fun p hp => h p (by simp [hp]))]

theorem strayClose_eq_false (s : List Char)
    (h : ∀ ch ∈ s, (ch == cbrace) = false) : M.strayClose s = false := by
  induction s with
  | nil => rfl
  | cons a t ih =>
    simp only [M.strayClose, h a (by simp), Bool.false_eq_true, if_false]
    by_cases ho : (a == obrace) = true
    · simp [ho]
    · simp only [Bool.eq_false_iff.mpr ho, Bool.false_eq_true, if_false]
      exact ih (fun ch hch => h ch (by simp [hch]))

theorem unmatchedOpen_eq_false (s : List Char)
    (h : ∀ ch ∈ s, (ch == obrace) = false) : M.unmatchedOpen s = false := by
  induction s with
  | nil => rfl
  | cons a t ih =>
    simp only [M.unmatchedOpen, h a (by simp), Bool.false_and, Bool.false_eq_true, if_false]
    exact ih (fun ch hch => h ch (by simp [hch]))

theorem strayClose_of_decomp (u v : List Char) (hu : obrace ∉ u) :
    M.strayClose (u ++ cbrace :: v) = true := by
  induction u with
  | nil => simp [M.strayClose]
  | cons a u' ih =>
    by_cases hc : (a == cbrace) = true
    · simp [M.strayClose, hc]
    · have ho : (a == obrace) = false :=
        beq_eq_false_iff_ne.mpr (fun he => hu (by simp [← he]))
      simp only [List.cons_append, M.strayClose, Bool.eq_false_iff.mpr hc, ho,
        Bool.false_eq_true, if_false]
      exact ih (fun hm => hu (by simp [hm]))

theorem unmatchedOpen_of_decomp (u v : List Char) (hv : cbrace ∉ v) :
    M.unmatchedOpen (u ++ obrace :: v) = true := by
  induction u with
  | nil =>
    have hcont : v.contains cbrace = false := by simpa using hv
    simp [M.unmatchedOpen, hcont]
    exact Or.inl hv
  | cons a u' ih =>
    by_cases hcond : (a == obrace && !((u' ++ obrace :: v).contains cbrace)) = true
    · simp only [List.cons_append, M.unmatchedOpen, List.append_eq, hcond, if_true]
    · simp only [List.cons_append, M.unmatchedOpen, Bool.eq_false_iff.mpr hcond,
        Bool.false_eq_true, if_false, List.append_eq]
      exact ih
theorem m_frame_noparams (Hd : List Char)
    (hOb : ∀ ch ∈ Hd, (ch == obrace) = false)
    (hCb : ∀ ch ∈ Hd, (ch == cbrace) = false) :
    prefixOk (('!' :: '!' :: Hd) ++ "##".data) = true ∧
    "##".data.isSuffixOf (('!' :: '!' :: Hd) ++ "##".data) = true ∧
    M.malformedBraces (('!' :: '!' :: Hd) ++ "##".data) = false ∧
    firstIdx (fun c => c == obrace) (('!' :: '!' :: Hd) ++ "##".data) = none ∧
    sub (('!' :: '!' :: Hd) ++ "##".data) 2
      ((('!' :: '!' :: Hd) ++ "##".data).length - 2) = Hd := by
  have hCb' : ∀ ch ∈ ('!' :: '!' :: Hd) ++ "##".data, (ch == cbrace) = false := by
    intro ch hch
    rcases List.mem_append.mp hch with hch | hch
    · rcases List.mem_cons.mp hch with rfl | hch
      · rfl
      rcases List.mem_cons.mp hch with rfl | hch
      · rfl
      · exact hCb ch hch
    · rw [hash_mem ch hch]
      rfl
  have hOb' : ∀ ch ∈ ('!' :: '!' :: Hd) ++ "##".data, (ch == obrace) = false :=
    noBrace_frame_chars Hd hOb
  refine ⟨prefixOk_append _, isSuffixOf_append _, ?_, firstIdx_eq_none_of_all _ _ hOb', ?_⟩
  · unfold M.malformedBraces
    rw [strayClose_eq_false _ hCb', unmatchedOpen_eq_false _ hOb']
    rfl
  · have hl : (('!' :: '!' :: Hd) ++ "##".data).length - 2 = Hd.length + 2 := by
      simp
    rw [hl]
    unfold sub
    rw [List.take_left' (by simp)]
    rfl

theorem resolveParts_snoc2 (rs : List (List Char)) (k c : List Char) :
    M.resolveParts (rs ++ [k, c]) = (rs, k, c) := by
  unfold M.resolveParts
  have hrev : (rs ++ [k, c]).reverse = c :: k :: rs.reverse := by simp
  rw [hrev]
  simp
theorem c1_general (rs : List (List Char)) (k c : List Char)
    (hparts : ∀ p ∈ rs ++ [k, c], trim p = p ∧ p.all partOk = true)
    (hcne : c ≠ []) :
    M.parse ("!!".data ++ joinSep [':'] (rs ++ [k, c]) ++ "##".data) =
      .ok ⟨rs, k, c, []⟩ := by
  have hpart_chars : ∀ p ∈ rs ++ [k, c], ∀ ch ∈ p, partOk ch = true := by
    intro p hp ch hch
    exact List.all_eq_true.mp (hparts p hp).2 ch hch
  have hJOb : ∀ ch ∈ joinSep [':'] (rs ++ [k, c]), (ch == obrace) = false := by
    intro ch hch
    rcases mem_joinSep _ _ ch hch with hch | ⟨p, hp, hch⟩
    · rw [show ch = ':' by simpa using hch]
      rfl
    · exact (partOk_spec ch (hpart_chars p hp ch hch)).2.1
  have hJCb : ∀ ch ∈ joinSep [':'] (rs ++ [k, c]), (ch == cbrace) = false := by
    intro ch hch
    rcases mem_joinSep _ _ ch hch with hch | ⟨p, hp, hch⟩
    · rw [show ch = ':' by simpa using hch]
      rfl
    · exact (partOk_spec ch (hpart_chars p hp ch hch)).2.2
  have hshow : "!!".data ++ joinSep [':'] (rs ++ [k, c]) ++ "##".data =
      ('!' :: '!' :: joinSep [':'] (rs ++ [k, c])) ++ "##".data := rfl
  rw [hshow]
  obtain ⟨hpre, hsuf, hmal, hfi, hsub⟩ :=
    m_frame_noparams (joinSep [':'] (rs ++ [k, c])) hJOb hJCb
  have hlastJ : (joinSep [':'] (rs ++ [k, c])).getLast? ≠ some ':' := by
    have hsnoc : rs ++ [k, c] = (rs ++ [k]) ++ [c] := by simp
    have hJ : joinSep [':'] (rs ++ [k, c]) =
        (joinSep [':'] (rs ++ [k]) ++ [':']) ++ c := by
      rw [hsnoc, joinSep_snoc _ _ _ (by simp)]
    rw [hJ, List.getLast?_append_of_ne_nil _ hcne]
    intro h
    have hmem := mem_of_getLast?_eq c ':' h
    have := (partOk_spec ':' (hpart_chars c (by simp) ':' hmem)).1
    simp at this
  have hsplit : splitOnChar ':' (joinSep [':'] (rs ++ [k, c])) = rs ++ [k, c] := by
    refine splitOnChar_joinSep ':' _ (by simp) ?_
    intro p hp ch hch
    intro he
    have := (partOk_spec ch (hpart_chars p hp ch hch)).1
    rw [he] at this
    simp at this
  have htrims : (rs ++ [k, c]).map trim = rs ++ [k, c] :=
    map_trim_id _ (fun p hp => (hparts p hp).1)
  simp only [M.parse, hpre, Bool.not_true, Bool.false_eq_true, if_false, hsuf, hmal,
    hfi, hsub, if_neg hlastJ, hsplit, htrims, resolveParts_snoc2]
  rw [if_neg hcne]

/-! Claim theorems. -/

/-- Claim C1: parsing the multi-hop example yields routing chain
[MASTER, ARM1], message kind REQUEST, command MAKE_STAR and size=120;
and in general, for every header of two or more colon-separated parts,
the last part becomes the command name, the part immediately before it
the message kind, and all earlier parts the routing chain in original
left-to-right order. -/
theorem c1_multi_hop_header :
    M.parse "!!MASTER:ARM1:REQUEST:MAKE_STAR\x7bsize=120\x7d##".data =
      .ok ⟨["MASTER".data, "ARM1".data], "REQUEST".data, "MAKE_STAR".data,
           [("size".data, "120".data)]⟩ ∧
    ∀ (rs : List (List Char)) (k c : List Char),
      (∀ p ∈ rs ++ [k, c], trim p = p ∧ p.all partOk = true) →
      c ≠ [] →
      M.parse ("!!".data ++ joinSep [':'] (rs ++ [k, c]) ++ "##".data) =
        .ok ⟨rs, k, c, []⟩ :=
  ⟨rfl, fun rs k c hparts hcne => c1_general rs k c hparts hcne⟩

/-- Claim C1 witness: the general header rule applied to the concrete
two-part header A:B. -/
theorem c1_multi_hop_header_witness :
    M.parse ("!!".data ++ joinSep [':'] ([] ++ ["A".data, "B".data]) ++ "##".data) =
      .ok ⟨[], "A".data, "B".data, []⟩ :=
  c1_multi_hop_header.2 [] "A".data "B".data (by decide) (by decide)

/-- Claim C2 counterexample: the command with one parameter k = " x"
(value with a leading space, containing none of the five delimiter
characters) serializes and re-parses successfully but to a different
command — the value comes back trimmed — so the round trip as claimed
fails at this input. -/
theorem c2_round_trip_cex :
    (P0.parse (P0.Command.toString ⟨[], "C".data, [("k".data, " x".data)]⟩)
        P0.Command.empty []).1 = true ∧
    (P0.parse (P0.Command.toString ⟨[], "C".data, [("k".data, " x".data)]⟩)
        P0.Command.empty []).2.1 ≠ ⟨[], "C".data, [("k".data, " x".data)]⟩ ∧
    " x".data.all plainChar = true := by
  refine ⟨rfl, ?_, rfl⟩
  decide

/-- Claim C2 witness: the amended round trip at the concrete command
K:C with parameter a=1. -/
theorem c2_round_trip_witness :
    P0.parse (P0.Command.toString ⟨"K".data, "C".data, [("a".data, "1".data)]⟩)
        P0.Command.empty [] =
      (true, ⟨"K".data, "C".data, [("a".data, "1".data)]⟩, []) :=
  c2_round_trip ⟨"K".data, "C".data, [("a".data, "1".data)]⟩ P0.Command.empty []
    (by decide) (by decide) (by decide) (by decide) (by decide)

/-- Claim C3 counterexample: parse of the frame !!A: ## fails with the
Empty command error while the output command still carries message kind
A, so a failing parse can leave a partially populated command. -/
theorem c3_partial_state_cex :
    (P0.parse "!!A: ##".data P0.Command.empty []).1 = false ∧
    (P0.parse "!!A: ##".data P0.Command.empty []).2.2 = "Empty command".data ∧
    (P0.parse "!!A: ##".data P0.Command.empty []).2.1 ≠ P0.Command.empty := by
  refine ⟨rfl, rfl, ?_⟩
  decide

/-- Claim C3 (amended): the output command is cleared at entry, and on
the framing failures (missing prefix or suffix) it is still empty when
the error is returned; later failures may retain header fields parsed
from the current input. -/
theorem c3_cleared_on_framing_failure (s : List Char) (o : P0.Command)
    (e : List Char)
    (h : prefixOk s = false ∨ P0.suffixBad s = true) :
    (P0.parse s o e).1 = false ∧ (P0.parse s o e).2.1 = P0.Command.empty := by
  rcases h with h | h
  · simp [P0.parse, h, P0.Command.clear]
  · by_cases hp : prefixOk s
    · simp [P0.parse, hp, h, P0.Command.clear]
    · simp [P0.parse, Bool.eq_false_iff.mpr hp, P0.Command.clear]

/-- Claim C3 witness: the amended statement at the concrete input xyz
(missing prefix). -/
theorem c3_cleared_on_framing_failure_witness :
    (P0.parse "xyz".data P0.Command.empty []).1 = false ∧
    (P0.parse "xyz".data P0.Command.empty []).2.1 = P0.Command.empty :=
  c3_cleared_on_framing_failure "xyz".data P0.Command.empty [] (Or.inl (by decide))

/-- Claim C4: every successful parse produces a non-empty command name,
and when the resolved command name is empty after trimming, parse fails
with the Empty command error. -/
theorem c4_nonempty_command :
    (∀ (s : List Char) (o : P0.Command) (e r : List Char) (c : P0.Command),
        P0.parse s o e = (true, c, r) → c.command ≠ []) ∧
    (∀ (s : List Char) (o : P0.Command) (e : List Char),
        prefixOk s = true → P0.suffixBad s = false →
        (P0.splitHeader (P0.headerOf s)).2 = [] →
        P0.parse s o e = (false, ⟨(P0.splitHeader (P0.headerOf s)).1, [], []⟩,
          "Empty command".data)) := by
  constructor
  · intro s o e r c h
    by_cases hp : prefixOk s
    case neg => simp [P0.parse, Bool.eq_false_iff.mpr hp] at h
    by_cases hb : P0.suffixBad s
    case pos => simp [P0.parse, hp, hb] at h
    by_cases hc : (P0.splitHeader (P0.headerOf s)).2 = []
    case pos => simp [P0.parse, hp, hb, hc] at h
    simp only [P0.parse, hp, Bool.not_true, Bool.false_eq_true, if_false,
      Bool.eq_false_iff.mpr hb, hc, if_neg] at h
    cases hbo : firstIdx (fun c => c == obrace) s with
    | none =>
      rw [hbo] at h
      have h2 := congrArg (fun t : Bool × P0.Command × List Char => t.2.1.command) h
      simp only at h2
      rw [← h2]
      exact hc
    | some bo =>
      rw [hbo] at h
      cases hbc : lastIdx (fun c => c == cbrace) s with
      | none => rw [hbc] at h; simp at h
      | some bc =>
        rw [hbc] at h
        by_cases hlt : bc < bo
        · simp [hlt] at h
        · simp only [hlt, if_false] at h
          have h2 := congrArg (fun t : Bool × P0.Command × List Char => t.2.1.command) h
          simp only at h2
          rw [(paramLoop_fields _ _ _).2] at h2
          simp only at h2
          rw [← h2]
          exact hc
  · intro s o e hp hb hc
    simp [P0.parse, hp, hb, hc, P0.Command.clear, P0.Command.empty]

/-- Claim C4 witness: a successful parse with non-empty command name,
and the Empty command failure at the concrete input !!A: ##. -/
theorem c4_nonempty_command_witness :
    ("B".data : List Char) ≠ [] ∧
    P0.parse "!!A: ##".data P0.Command.empty [] =
      (false, ⟨"A".data, [], []⟩, "Empty command".data) := by
  constructor
  · exact c4_nonempty_command.1 "!!A:B##".data P0.Command.empty [] []
      ⟨"A".data, "B".data, []⟩ (by decide)
  · exact c4_nonempty_command.2 "!!A: ##".data P0.Command.empty []
      (by decide) (by decide) (by decide)

/-- Claim C5: parsing the flag example yields message kind ALERT,
command RAISE, the flag parameter present with an empty value, and
level equal to 5. -/
theorem c5_flag_params :
    M.parse "!!ALERT:RAISE\x7bflag,level=5\x7d##".data =
      .ok ⟨[], "ALERT".data, "RAISE".data,
           [("flag".data, []), ("level".data, "5".data)]⟩ := rfl

/-- Claim C6: parsing the quoting example preserves the comma inside
the double-quoted value verbatim, strips the quote characters, and
yields line equal to 1. -/
theorem c6_quoted_value :
    M.parse "!!LCD:PRINT\x7btext=\"Hello, World\",line=1\x7d##".data =
      .ok ⟨[], "LCD".data, "PRINT".data,
           [("text".data, "Hello, World".data), ("line".data, "1".data)]⟩ := rfl

/-- Claim C7: with the frame markers present, any closing brace with no
opening brace before it, or any opening brace with no closing brace at
or after it, makes parse fail with the Malformed braces error. -/
theorem c7_malformed_braces (s : List Char)
    (hp : prefixOk s = true) (hs : "##".data.isSuffixOf s = true)
    (h : (∃ u v, s = u ++ cbrace :: v ∧ obrace ∉ u) ∨
         (∃ u v, s = u ++ obrace :: v ∧ cbrace ∉ v)) :
    M.parse s = .error "Malformed braces".data := by
  have hmal : M.malformedBraces s = true := by
    unfold M.malformedBraces
    rcases h with ⟨u, v, rfl, hu⟩ | ⟨u, v, rfl, hv⟩
    · rw [strayClose_of_decomp u v hu]
      rfl
    · rw [unmatchedOpen_of_decomp u v hv]
      simp
  simp [M.parse, hp, hs, hmal]

/-- Claim C7 witness: the stray closing brace in !!A}## is rejected. -/
theorem c7_malformed_braces_witness :
    M.parse "!!A\x7d##".data = .error "Malformed braces".data :=
  c7_malformed_braces "!!A\x7d##".data (by decide) (by decide)
    (Or.inl ⟨"!!A".data, "##".data, by decide, by decide⟩)

/-- Claim C8: every input without the !! sign at the start fails with
the Missing prefix error, and every input with it but without the
trailing ## fails with the Missing suffix error; in particular at the
two concrete inputs of the spec. -/
theorem c8_framing_errors :
    (∀ (s : List Char) (o : P0.Command) (e : List Char), prefixOk s = false →
        P0.parse s o e = (false, P0.Command.empty, "Missing prefix \x27!!\x27".data)) ∧
    (∀ (s : List Char) (o : P0.Command) (e : List Char),
        prefixOk s = true → "##".data.isSuffixOf s = false →
        P0.parse s o e = (false, P0.Command.empty, "Missing suffix \x27##\x27".data)) ∧
    P0.parse "REQUEST:PING##".data P0.Command.empty [] =
      (false, P0.Command.empty, "Missing prefix \x27!!\x27".data) ∧
    P0.parse "!!REQUEST:PING".data P0.Command.empty [] =
      (false, P0.Command.empty, "Missing suffix \x27##\x27".data) := by
  refine ⟨?_, ?_, rfl, rfl⟩
  · intro s o e h
    simp [P0.parse, h, P0.Command.clear]
  · intro s o e hp hs
    have hbad := suffixBad_of_not_suffix s hp hs
    simp [P0.parse, hp, hbad, P0.Command.clear]

/-- Claim C8 witness: the prefix error at the concrete input x. -/
theorem c8_framing_errors_witness :
    P0.parse "x".data P0.Command.empty [] =
      (false, P0.Command.empty, "Missing prefix \x27!!\x27".data) :=
  c8_framing_errors.1 "x".data P0.Command.empty [] (by decide)

/-- Claim C9: in bounded (Arduino) mode, once the stored parameter
count has reached the configured maximum, setParam with an absent key
returns false and leaves the parameters unchanged, while setParam with
a present key succeeds, keeps the keys and the count, updates that
key's value and leaves every other key's value unchanged. -/
theorem c9_bounded_cap :
    (∀ (maxP : Nat) (l : List (List Char × List Char)) (k v : List Char),
        l.length = maxP → k ∉ l.map Prod.fst →
        ABounded.setParam maxP l k v = (false, l)) ∧
    (∀ (maxP : Nat) (l : List (List Char × List Char)) (k v : List Char),
        k ∈ l.map Prod.fst →
        ABounded.setParam maxP l k v = (true, updateAssoc l k v) ∧
        (updateAssoc l k v).map Prod.fst = l.map Prod.fst ∧
        (updateAssoc l k v).length = l.length ∧
        lookupD (updateAssoc l k v) k [] = v ∧
        (∀ (k' d : List Char), k' ≠ k →
          lookupD (updateAssoc l k v) k' d = lookupD l k' d)) := by
  constructor
  · intro maxP l k v hlen hmem
    simp [ABounded.setParam, hmem, hlen]
  · intro maxP l k v hmem
    exact ⟨by simp [ABounded.setParam, hmem], updateAssoc_keys_of_mem l k v hmem,
      updateAssoc_length_of_mem l k v hmem, lookupD_updateAssoc_self l k v [],
      fun k' d h => lookupD_updateAssoc_other l k v k' d h⟩

/-- Claim C9 witness: at capacity 2 with keys a and b, adding key c is
refused and the store is unchanged, while overwriting key a succeeds. -/
theorem c9_bounded_cap_witness :
    ABounded.setParam 2 [("a".data, "1".data), ("b".data, "2".data)]
      "c".data "3".data = (false, [("a".data, "1".data), ("b".data, "2".data)]) ∧
    ABounded.setParam 2 [("a".data, "1".data), ("b".data, "2".data)]
      "a".data "9".data =
      (true, updateAssoc [("a".data, "1".data), ("b".data, "2".data)]
        "a".data "9".data) := by
  constructor
  · exact c9_bounded_cap.1 2 [("a".data, "1".data), ("b".data, "2".data)]
      "c".data "3".data (by decide) (by decide)
  · exact (c9_bounded_cap.2 2 [("a".data, "1".data), ("b".data, "2".data)]
      "a".data "9".data (by decide)).1

/-- Claim C10: the result of parse — success flag, output command and
error text — does not depend on the caller-supplied starting command or
error string, because both are cleared before any other processing. -/
theorem c10_initial_state_independence (s : List Char)
    (o1 o2 : P0.Command) (e1 e2 : List Char) :
    P0.parse s o1 e1 = P0.parse s o2 e2 := rfl
